import Mathlib

/-!
The `jobs/gen.go` dispatch-table generator of goflow

A shallow embedding of `src/jobs/gen.go` (the program behind `go generate`)
and theorems about it.

Modelling decisions.

* A Go `string` is modelled as a `List Char`.  Every separator the program
  uses (`" "`, `"\n"`, `"// goflow: "`, `"_job"`) is ASCII, and an ASCII byte
  never occurs inside a multi-byte UTF-8 sequence, so searching and splitting
  by code point agrees with Go's byte-wise search on UTF-8 text.
* A run-time panic and `log.Fatal` are explicit `Fault` values.
* The file system is an explicit value: the result of `ioutil.ReadDir`, the
  result of `ioutil.ReadFile` per path, the content of `./flow.go`, and whether
  `os.Create` succeeds.
* `log.Printf` writes a time-stamped line to standard error; it does not
  influence control flow or the output file and is left out.
-/

namespace Goflow

/-- A Go string. -/
abbrev GoString := List Char

/-- An I/O error value returned by the `ioutil`/`os` functions. -/
structure IOError where
  msg : String
  deriving DecidableEq, Repr

/-- The ways a run stops abnormally. -/
inductive Fault where
  /-- Stop by `log.Fatal(err)`: the message is logged, the exit status is 1. -/
  | fatal (err : IOError)
  /-- Run-time panic `index out of range [index] with length length`. -/
  | indexOutOfRange (index length : Nat)
  deriving DecidableEq, Repr

deriving instance DecidableEq for Except

/-! ## Library functions used by the program -/

/-- Go `strings.Contains(s, substr)`: `substr` occurs somewhere in `s`. -/
def stringsContains (s substr : GoString) : Bool :=
  match s with
  | [] => substr.isPrefixOf []
  | c :: cs => substr.isPrefixOf (c :: cs) || stringsContains cs substr

/-- Go `strings.Split(s, sep)` for a one-character separator: the pieces of `s`
between consecutive occurrences of `sep`; always at least one piece. -/
def stringsSplit (sep : Char) : GoString → List GoString
  | [] => [[]]
  | c :: cs =>
    if c = sep then [] :: stringsSplit sep cs
    else
      match stringsSplit sep cs with
      | [] => [[c]]
      | w :: ws => (c :: w) :: ws

/-- Go slice indexing `xs[i]`: the element, or the out-of-range panic. -/
def index (xs : List GoString) (i : Nat) : Except Fault GoString :=
  match xs.get? i with
  | some x => .ok x
  | none => .error (.indexOutOfRange i xs.length)

/-- The literal prefix of the pattern `"// goflow: .*"`. -/
def directive : GoString := "// goflow: ".toList

/-- Go `regexp.MustCompile("// goflow: .*").FindString(file)`: the leftmost match.
The match starts at the first occurrence of the literal prefix; the greedy
`.*` then takes every following character up to, not including, the next
newline (`.` does not match `\n`).  Without a match the result is `""`. -/
def findString (file : GoString) : GoString :=
  match file with
  | [] => []
  | _ :: cs =>
    if directive.isPrefixOf file then
      directive ++ (file.drop directive.length).takeWhile (fun c => c != '\n')
    else findString cs

/-! ## `filterFlow` -/

/-- Function `filterFlow`: the flow comment of a file, split on `" "`;
returns `(jobName, jobFn) = (comment[3], comment[2])`. -/
def filterFlow (file : GoString) : Except Fault (GoString × GoString) :=
  let comment := stringsSplit ' ' (findString file)
  match index comment 3 with
  | .error e => .error e
  | .ok jobName =>
    match index comment 2 with
    | .error e => .error e
    | .ok jobFn => .ok (jobName, jobFn)

/-! ## The template -/

/-- White space removed by a template trim marker: space, tab, carriage
return and newline. -/
def isTrimSpace (c : Char) : Bool :=
  c == ' ' || c == '\t' || c == '\r' || c == '\n'

/-- Effect of the trim marker `{{- ` on the template text before it: all
trailing white space of that text is removed. -/
def trimRight (text : GoString) : GoString :=
  (text.reverse.dropWhile isTrimSpace).reverse

/-- Template text before `{{- range .Cases }}`. -/
def textBeforeRange : GoString :=
  ("// Code generated by go generate; DO NOT EDIT.\n" ++
   "package main\n" ++
   "\n" ++
   "import \"github.com/fieldryand/goflow/core\"\n" ++
   "import \"github.com/fieldryand/goflow/jobs\"\n" ++
   "\n" ++
   "func flow(job string) func() *core.Job \x7b\n" ++
   "\tswitch job \x7b\n" ++
   "\t").toList

/-- Template text between `{{- range .Cases }}` and `{{ . }}`. -/
def textBeforeDot : GoString := "\n\t\t".toList

/-- Template text between `{{ . }}` and `{{- end }}`. -/
def textBeforeEnd : GoString := "\n\t".toList

/-- Template text after `{{- end }}`. -/
def textAfterEnd : GoString :=
  ("\n" ++
   "\tdefault:\n" ++
   "\t\treturn nil\n" ++
   "\t\x7d\n" ++
   "\x7d\n").toList

/-- Call `flowTemplate.Execute(f, struct{ Cases []string }{cases})`: the text
written.  The body of `range` is emitted once per element, in order; `{{ . }}`
prints the element itself (`text/template` does not escape). -/
def flowTemplate (cases : List GoString) : GoString :=
  trimRight textBeforeRange ++
  (cases.map fun c => textBeforeDot ++ c ++ trimRight textBeforeEnd).flatten ++
  textAfterEnd

/-! ## `main` -/

/-- The part of the world `main` touches. -/
structure World where
  /-- Result of `ioutil.ReadDir("./jobs")`: the entry names (the library
  returns them sorted by file name), or an error. -/
  readDir : Except IOError (List GoString)
  /-- Result of `ioutil.ReadFile(path)`. -/
  readFile : GoString → Except IOError GoString
  /-- Content of `./flow.go`; `none` when the file does not exist. -/
  flow : Option GoString
  /-- Whether `os.Create("./flow.go")` succeeds. -/
  creatable : Bool

/-- The path `main` builds for a directory entry. -/
def jobPath (name : GoString) : GoString := "./jobs/".toList ++ name

/-- The branch text `main` builds from an extracted pair. -/
def switchCase (jobName jobFn : GoString) : GoString :=
  "case \"".toList ++ jobName ++ "\": return jobs.".toList ++ jobFn

/-- The `for _, file := range files` loop of `main`; `cases` is the slice
accumulated so far. -/
def scanLoop (readFile : GoString → Except IOError GoString) :
    List GoString → List GoString → Except Fault (List GoString)
  | [], cases => .ok cases
  | name :: rest, cases =>
    let path := jobPath name
    if stringsContains path "_job".toList then
      match readFile path with
      | .error err => .error (.fatal err)
      | .ok dat =>
        match filterFlow dat with
        | .error e => .error e
        | .ok (jobName, jobFn) =>
          scanLoop readFile rest (cases ++ [switchCase jobName jobFn])
    else scanLoop readFile rest cases

/-- How the process ends. -/
inductive Exit where
  /-- Function `main` returns: exit status 0. -/
  | success
  /-- The run stopped with a fault. -/
  | failed (fault : Fault)
  deriving DecidableEq, Repr

/-- Function `main`: the exit of the process and the content of `./flow.go` afterwards.
The error of `os.Create` is discarded; on failure `f` is a nil file, on which
`Execute`'s writes and `Close` return an error that is discarded as well. -/
def main (w : World) : Exit × Option GoString :=
  match w.readDir with
  | .error err => (.failed (.fatal err), w.flow)
  | .ok files =>
    match scanLoop w.readFile files [] with
    | .error e => (.failed e, w.flow)
    | .ok cases =>
      if w.creatable then (.success, some (flowTemplate cases))
      else (.success, w.flow)

/-! ## Vocabulary of the specification -/

/-- A token of a marker comment: non-empty and free of white space. -/
def IsToken (t : GoString) : Prop :=
  t ≠ [] ∧ ∀ c ∈ t, c.isWhitespace = false

/-- The text of the marker comment `// goflow: F N`. -/
def markerComment (F N : GoString) : GoString :=
  directive ++ F ++ ' ' :: N

/-- The content `file` has a line that is the marker comment `// goflow: F N`. -/
def HasMarkerLine (file F N : GoString) : Prop :=
  ∃ pre post, file = pre ++ markerComment F N ++ post ∧
    (pre = [] ∨ pre.getLast? = some '\n') ∧
    (post = [] ∨ post.head? = some '\n')

/-- A content with two marker lines. -/
def twoMarkers : GoString :=
  "// goflow: ExportJob export\n// goflow: IngestJob ingest\n".toList

/-- The participation test of `main`, applied to the path of an entry. -/
def participates (name : GoString) : Bool :=
  stringsContains (jobPath name) "_job".toList

/-- The branch a participating entry yields: read the file, extract the pair,
build the branch text; a read error is fatal and a panic propagates. -/
def branchOf (readFile : GoString → Except IOError GoString) (name : GoString) :
    Except Fault GoString :=
  match readFile (jobPath name) with
  | .error err => .error (.fatal err)
  | .ok dat =>
    match filterFlow dat with
    | .error e => .error e
    | .ok (jobName, jobFn) => .ok (switchCase jobName jobFn)

/-- A jobs directory whose only entry `ingest_job.go` has the given content;
`./flow.go` holds `old` and can be created. -/
def singleJobWorld (content : GoString) (old : Option GoString) : World where
  readDir := .ok ["ingest_job.go".toList]
  readFile := fun path =>
    if path = "./jobs/ingest_job.go".toList then .ok content
    else .error ⟨"no such file or directory"⟩
  flow := old
  creatable := true

/-- A jobs directory with one job file, a `README.md` and a sub-directory
`testdata` that cannot be read as a file. -/
def mixedFiles : List GoString :=
  ["README.md".toList, "ingest_job.go".toList, "testdata".toList]

/-- What `ioutil.ReadFile` returns in the directory of `mixedFiles`. -/
def mixedReadFile (path : GoString) : Except IOError GoString :=
  if path = "./jobs/ingest_job.go".toList then
    .ok "package jobs\n\n// goflow: IngestJob ingest\n".toList
  else if path = "./jobs/README.md".toList then .ok "# jobs\n".toList
  else .error ⟨"read ./jobs/testdata: is a directory"⟩

/-- What `ioutil.ReadFile` returns in a directory holding `ingest_job.go` alone. -/
def jobOnlyReadFile (path : GoString) : Except IOError GoString :=
  if path = "./jobs/ingest_job.go".toList then
    .ok "package jobs\n\n// goflow: IngestJob ingest\n".toList
  else .error ⟨"no such file or directory"⟩

/-- The world after a run of `main`: only `./flow.go` may have changed. -/
def afterRun (w : World) : World :=
  { w with flow := (main w).2 }

/-- A jobs directory with one well-formed job file, in a working directory
where `./flow.go` cannot be created; `old` is the present content. -/
def readOnlyWorld (old : Option GoString) : World where
  readDir := .ok ["ingest_job.go".toList]
  readFile := jobOnlyReadFile
  flow := old
  creatable := false

/-- A content with three marker lines, the first one malformed. -/
def threeMarkers : GoString :=
  "package jobs\n// goflow: TODO\n// goflow: ExportJob export\n// goflow: IngestJob ingest\n".toList

/-- Modelled from the spec: one branch line of the generated selection
function, `case "<jobName>": return jobs.<constructorName>` after two tabs,
read back as the pair `(jobName, constructorName)`; the key is the text up to
the closing quote.  Any other line is not a branch. -/
def parseBranch (line : GoString) : Option (GoString × GoString) :=
  if "\t\tcase \"".toList.isPrefixOf line then
    let afterQuote := line.drop "\t\tcase \"".toList.length
    let key := afterQuote.takeWhile (fun c => c != '"')
    let afterKey := afterQuote.drop key.length
    if "\": return jobs.".toList.isPrefixOf afterKey then
      some (key, afterKey.drop "\": return jobs.".toList.length)
    else none
  else none

/-- Modelled from the spec: the match branches of a generated document, in
the order of its lines. -/
def branchesOf (doc : GoString) : List (GoString × GoString) :=
  (stringsSplit '\n' doc).filterMap parseBranch

/-- Modelled from the spec: the generated selection function `flow(job)`.
The input is compared with the key of each branch from top to bottom and the
first match returns that branch's constructor name; when no branch matches,
`default: return nil` returns the sentinel, here `none`. -/
def selectJob (doc job : GoString) : Option GoString :=
  ((branchesOf doc).find? fun b => b.1 == job).map fun b => b.2

/-! ## Lemmas on the library functions -/

theorem stringsSplit_append_sep (sep : Char) (a b : GoString) (h : sep ∉ a) :
    stringsSplit sep (a ++ sep :: b) = a :: stringsSplit sep b := by
  induction a with
  | nil => simp [stringsSplit]
  | cons c a ih =>
    have hc : c ≠ sep := fun e => h (by simp [e])
    have ha : sep ∉ a := fun e => h (by simp [e])
    simp [stringsSplit, hc, ih ha]

theorem stringsSplit_of_not_mem (sep : Char) (a : GoString) (h : sep ∉ a) :
    stringsSplit sep a = [a] := by
  induction a with
  | nil => simp [stringsSplit]
  | cons c a ih =>
    have hc : c ≠ sep := fun e => h (by simp [e])
    have ha : sep ∉ a := fun e => h (by simp [e])
    simp [stringsSplit, hc, ih ha]

/-- The literal prefix cannot overlap a later copy of itself: when it is a
prefix of `pre ++ directive ++ rest`, either `pre` is empty or the prefix lies
inside `pre`. -/
theorem directive_prefix_append (pre rest : GoString)
    (h : directive.isPrefixOf (pre ++ directive ++ rest) = true) :
    pre = [] ∨ directive.isPrefixOf pre = true := by
  rcases pre with _ | ⟨c0, _ | ⟨c1, _ | ⟨c2, _ | ⟨c3, _ | ⟨c4, _ | ⟨c5, _ | ⟨c6, _ | ⟨c7,
    _ | ⟨c8, _ | ⟨c9, _ | ⟨c10, t⟩⟩⟩⟩⟩⟩⟩⟩⟩⟩⟩
  · exact Or.inl rfl
  all_goals
    right
    simp only [directive, String.toList, List.cons_append, List.nil_append,
      List.isPrefixOf, Bool.and_eq_true, beq_iff_eq] at h ⊢
    first
      | exact h
      | (obtain ⟨h0, h1, h2, h3, h4, h5, h6, h7, h8, h9, h10⟩ := h
         subst_vars
         simp at *)


theorem findString_first (pre rest : GoString)
    (h : stringsContains pre directive = false) :
    findString (pre ++ directive ++ rest) =
      directive ++ rest.takeWhile (fun c => c != '\n') := by
  induction pre with
  | nil =>
    simp [directive, findString, List.isPrefixOf]
  | cons c cs ih =>
    simp only [stringsContains, Bool.or_eq_false_iff] at h
    have hp : directive.isPrefixOf (c :: cs ++ directive ++ rest) = false := by
      cases hq : directive.isPrefixOf (c :: cs ++ directive ++ rest) with
      | false => rfl
      | true =>
        rcases directive_prefix_append (c :: cs) rest hq with h0 | h0
        · cases h0
        · rw [h.1] at h0; cases h0
    have hp2 : directive.isPrefixOf (c :: (cs ++ (directive ++ rest))) = false := by
      simpa using hp
    simp only [List.cons_append, List.append_assoc, findString, hp2]
    simpa using ih h.2

theorem takeWhile_line (line post : GoString) (hl : '\n' ∉ line)
    (hp : post = [] ∨ post.head? = some '\n') :
    (line ++ post).takeWhile (fun c => c != '\n') = line := by
  induction line with
  | nil =>
    rcases hp with rfl | hp
    · rfl
    · cases post with
      | nil => rfl
      | cons d ds =>
        simp only [List.head?_cons, Option.some.injEq] at hp
        simp [hp]
  | cons c cs ih =>
    have hc : c ≠ '\n' := fun e => hl (by simp [e])
    have hcs : '\n' ∉ cs := fun e => hl (by simp [e])
    have hb : (c != '\n') = true := by simpa using hc
    simp only [List.cons_append, List.takeWhile_cons, hb, if_true, ih hcs]

/-- The matched marker text `// goflow: F N` is split into exactly four pieces
and `filterFlow` returns the last two, swapped. -/
theorem filterFlow_marker (pre F N post : GoString)
    (hpre : stringsContains pre directive = false)
    (hF : ' ' ∉ F ∧ '\n' ∉ F) (hN : ' ' ∉ N ∧ '\n' ∉ N)
    (hpost : post = [] ∨ post.head? = some '\n') :
    filterFlow (pre ++ directive ++ (F ++ ' ' :: N ++ post)) = .ok (N, F) := by
  have hline : '\n' ∉ F ++ ' ' :: N := by
    simp [hF.2, hN.2]
  have hfind : findString (pre ++ directive ++ (F ++ ' ' :: N ++ post)) =
      directive ++ (F ++ ' ' :: N) := by
    rw [findString_first pre _ hpre]
    have := takeWhile_line (F ++ ' ' :: N) post hline hpost
    simp only [List.append_assoc, List.cons_append] at this ⊢
    rw [this]
  have hsplit : stringsSplit ' ' (directive ++ (F ++ ' ' :: N)) =
      ["//".toList, "goflow:".toList, F, N] := by
    have h1 : directive ++ (F ++ ' ' :: N) =
        "//".toList ++ ' ' :: ("goflow:".toList ++ ' ' :: (F ++ ' ' :: N)) := by
      simp [directive]
    rw [h1, stringsSplit_append_sep _ _ _ (by decide),
      stringsSplit_append_sep _ _ _ (by decide),
      stringsSplit_append_sep _ _ _ hF.1, stringsSplit_of_not_mem _ _ hN.1]
  unfold filterFlow
  rw [hfind, hsplit]
  rfl


theorem isToken_no_sep (t : GoString) (h : IsToken t) : ' ' ∉ t ∧ '\n' ∉ t := by
  constructor
  · intro hm
    have := h.2 _ hm
    simp [Char.isWhitespace] at this
  · intro hm
    have := h.2 _ hm
    simp [Char.isWhitespace] at this

/-! ## The Extractor on a well-formed marker -/

/-- C1 as stated fails: `twoMarkers` has the well-formed marker line
`// goflow: IngestJob ingest`, yet `filterFlow` does not return
`(ingest, IngestJob)`: it returns the pair of the earlier marker line. -/
theorem filterFlow_later_marker_ignored :
    IsToken "IngestJob".toList ∧ IsToken "ingest".toList ∧
    HasMarkerLine twoMarkers "IngestJob".toList "ingest".toList ∧
    filterFlow twoMarkers = .ok ("export".toList, "ExportJob".toList) ∧
    filterFlow twoMarkers ≠ .ok ("ingest".toList, "IngestJob".toList) := by
  refine ⟨⟨by decide, by decide⟩, ⟨by decide, by decide⟩, ?_, by decide, by decide⟩
  exact ⟨"// goflow: ExportJob export\n".toList, "\n".toList, by decide, by decide, by decide⟩

/-- C1 (amended): when the first occurrence of `// goflow: ` in the content
starts a well-formed marker comment `// goflow: F N` that runs to the end of
its line, `filterFlow` returns exactly `(jobName, jobFn) = (N, F)`. -/
theorem filterFlow_first_marker (pre F N post : GoString)
    (hF : IsToken F) (hN : IsToken N)
    (hfirst : stringsContains pre directive = false)
    (hpost : post = [] ∨ post.head? = some '\n') :
    filterFlow (pre ++ markerComment F N ++ post) = .ok (N, F) := by
  have h := filterFlow_marker pre F N post hfirst (isToken_no_sep F hF)
    (isToken_no_sep N hN) hpost
  simpa [markerComment] using h

theorem filterFlow_first_marker_witness :
    filterFlow ("package jobs\n\n".toList ++
      markerComment "IngestJob".toList "ingest".toList ++
      "\nfunc IngestJob() *core.Job".toList) =
    .ok ("ingest".toList, "IngestJob".toList) :=
  filterFlow_first_marker "package jobs\n\n".toList "IngestJob".toList "ingest".toList
    "\nfunc IngestJob() *core.Job".toList
    ⟨by decide, by decide⟩ ⟨by decide, by decide⟩ (by decide) (Or.inr (by decide))


/-- C2: on a marker comment with fewer than two trailing tokens the code does
not report a malformed marker; `comment[3]` is evaluated on a slice of length 3
and the run stops with the out-of-range panic. -/
theorem filterFlow_short_marker_panics :
    filterFlow "// goflow: IngestJob".toList = .error (.indexOutOfRange 3 3) ∧
    filterFlow "// goflow: ".toList = .error (.indexOutOfRange 3 3) ∧
    main (singleJobWorld "package jobs\n// goflow: IngestJob\n".toList none) =
      (.failed (.indexOutOfRange 3 3), none) := by
  refine ⟨by decide, by decide, by decide⟩

/-! ## Splitting on the space character -/

/-- C9 as stated fails: with two spaces before the constructor name the
pieces shift by one and the pair is `(IngestJob, "")`; a tab does not separate
at all and the indexing panics. -/
theorem filterFlow_whitespace_run_fails :
    filterFlow "// goflow:  IngestJob ingest".toList = .ok ("IngestJob".toList, []) ∧
    filterFlow "// goflow:  IngestJob ingest".toList ≠
      .ok ("ingest".toList, "IngestJob".toList) ∧
    filterFlow "// goflow: IngestJob\tingest".toList = .error (.indexOutOfRange 3 3) ∧
    filterFlow "// goflow:\tIngestJob\tingest".toList = .error (.indexOutOfRange 3 1) := by
  refine ⟨by decide, by decide, by decide, by decide⟩

/-- C9 (amended): the matched text is split on the single character U+0020.
When the first marker line is `// goflow:`, one space, `F`, one space, `N`,
with `F` and `N` free of spaces and newlines (they may hold tabs: a tab is not
a separator), `filterFlow` returns `(jobName, jobFn) = (N, F)`. -/
theorem filterFlow_single_space (pre F N post : GoString)
    (hfirst : stringsContains pre directive = false)
    (hF : ' ' ∉ F ∧ '\n' ∉ F) (hN : ' ' ∉ N ∧ '\n' ∉ N)
    (hpost : post = [] ∨ post.head? = some '\n') :
    filterFlow (pre ++ "// goflow:".toList ++ [' '] ++ F ++ [' '] ++ N ++ post) =
      .ok (N, F) := by
  have h := filterFlow_marker pre F N post hfirst hF hN hpost
  have e : pre ++ "// goflow:".toList ++ [' '] ++ F ++ [' '] ++ N ++ post =
      pre ++ directive ++ (F ++ ' ' :: N ++ post) := by
    simp [directive]
  rw [e]
  exact h

theorem filterFlow_single_space_witness :
    filterFlow ("\t".toList ++ "// goflow:".toList ++ [' '] ++ "IngestJob".toList ++ [' '] ++
      "ingest\tnightly".toList ++ "\n".toList) =
    .ok ("ingest\tnightly".toList, "IngestJob".toList) :=
  filterFlow_single_space "\t".toList "IngestJob".toList "ingest\tnightly".toList "\n".toList
    (by decide) ⟨by decide, by decide⟩ ⟨by decide, by decide⟩ (Or.inr (by decide))

/-! ## What the returned names can contain -/

theorem mem_stringsSplit (sep : Char) (s w : GoString) (h : w ∈ stringsSplit sep s) :
    sep ∉ w ∧ ∀ c ∈ w, c ∈ s := by
  induction s generalizing w with
  | nil =>
    simp only [stringsSplit, List.mem_singleton] at h
    subst h
    simp
  | cons c cs ih =>
    by_cases hc : c = sep
    · simp only [stringsSplit, hc, if_true, List.mem_cons] at h
      rcases h with rfl | h
      · simp
      · have := ih w h
        exact ⟨this.1, fun d hd => List.mem_cons_of_mem _ (this.2 d hd)⟩
    · simp only [stringsSplit, hc, if_false] at h
      cases hs : stringsSplit sep cs with
      | nil =>
        rw [hs] at h
        simp only [List.mem_singleton] at h
        subst h
        exact ⟨by simpa using Ne.symm hc, by simp⟩
      | cons v vs =>
        rw [hs] at h
        simp only [List.mem_cons] at h
        rcases h with rfl | h
        · have := ih v (by simp [hs])
          refine ⟨?_, ?_⟩
          · intro hm
            rcases List.mem_cons.1 hm with e | e
            · exact hc e.symm
            · exact this.1 e
          · intro d hd
            rcases List.mem_cons.1 hd with e | e
            · simp [e]
            · exact List.mem_cons_of_mem _ (this.2 d e)
        · have := ih w (by simp [hs, h])
          exact ⟨this.1, fun d hd => List.mem_cons_of_mem _ (this.2 d hd)⟩

theorem findString_no_newline (file : GoString) : '\n' ∉ findString file := by
  induction file with
  | nil => simp [findString]
  | cons c cs ih =>
    unfold findString
    split
    · intro hm
      rcases List.mem_append.1 hm with h | h
      · revert h
        decide
      · have := List.mem_takeWhile_imp h
        simp at this
    · exact ih

theorem index_ok_mem (xs : List GoString) (i : Nat) (x : GoString)
    (h : index xs i = .ok x) : x ∈ xs := by
  unfold index at h
  cases hg : xs.get? i with
  | none => rw [hg] at h; cases h
  | some y =>
    rw [hg] at h
    cases h
    exact List.get?_mem hg

/-- C10 as stated fails: a trailing space after the constructor name makes
the fourth piece empty, and `filterFlow` returns an empty job name; a doubled
space makes the constructor name empty; a tab stays inside a name. -/
theorem filterFlow_returns_empty_name :
    filterFlow "// goflow: IngestJob ".toList = .ok ([], "IngestJob".toList) ∧
    filterFlow "// goflow:  IngestJob".toList = .ok ("IngestJob".toList, []) ∧
    filterFlow "// goflow: IngestJob ingest\tx".toList =
      .ok ("ingest\tx".toList, "IngestJob".toList) := by
  refine ⟨by decide, by decide, by decide⟩

/-- C10 (amended): whenever `filterFlow` returns a pair, neither name
contains a space or a newline, for every file content. -/
theorem filterFlow_names_no_separator (file jobName jobFn : GoString)
    (h : filterFlow file = .ok (jobName, jobFn)) :
    (' ' ∉ jobName ∧ '\n' ∉ jobName) ∧ (' ' ∉ jobFn ∧ '\n' ∉ jobFn) := by
  unfold filterFlow at h
  simp only at h
  cases h3 : index (stringsSplit ' ' (findString file)) 3 with
  | error e => rw [h3] at h; cases h
  | ok a =>
    cases h2 : index (stringsSplit ' ' (findString file)) 2 with
    | error e => rw [h3, h2] at h; cases h
    | ok b =>
      rw [h3, h2] at h
      simp only [Except.ok.injEq, Prod.mk.injEq] at h
      obtain ⟨rfl, rfl⟩ := h
      have ha := mem_stringsSplit _ _ _ (index_ok_mem _ _ _ h3)
      have hb := mem_stringsSplit _ _ _ (index_ok_mem _ _ _ h2)
      exact ⟨⟨ha.1, fun hm => findString_no_newline file (ha.2 _ hm)⟩,
        ⟨hb.1, fun hm => findString_no_newline file (hb.2 _ hm)⟩⟩

theorem filterFlow_names_no_separator_witness :
    (' ' ∉ "ingest".toList ∧ '\n' ∉ "ingest".toList) ∧
    (' ' ∉ "IngestJob".toList ∧ '\n' ∉ "IngestJob".toList) :=
  filterFlow_names_no_separator "// goflow: IngestJob ingest\n".toList
    "ingest".toList "IngestJob".toList (by decide)


/-! ## The scan loop -/

theorem participates_eq_name (name : GoString) :
    participates name = stringsContains name "_job".toList := by
  simp [participates, jobPath, stringsContains, List.isPrefixOf]

theorem scanLoop_eq_mapM (readFile : GoString → Except IOError GoString)
    (files cases : List GoString) :
    scanLoop readFile files cases =
      (files.filter participates).mapM (branchOf readFile) >>= fun bs => pure (cases ++ bs) := by
  induction files generalizing cases with
  | nil =>
    simp only [scanLoop, List.filter_nil, List.mapM_nil]
    simp [bind, Except.bind, pure, Except.pure]
  | cons name rest ih =>
    by_cases hp : participates name = true
    · have hp2 : stringsContains (jobPath name) "_job".toList = true := hp
      simp only [scanLoop, hp2, if_true, List.filter_cons_of_pos hp, List.mapM_cons]
      cases hr : readFile (jobPath name) with
      | error err => simp [branchOf, hr, bind, Except.bind]
      | ok dat =>
        cases hf : filterFlow dat with
        | error e => simp [branchOf, hr, hf, bind, Except.bind]
        | ok pr =>
          obtain ⟨jobName, jobFn⟩ := pr
          simp only [branchOf, hr, hf, ih]
          cases List.mapM (branchOf readFile) (List.filter participates rest) <;>
            simp [bind, Except.bind, pure, Except.pure]
    · have hp2 : stringsContains (jobPath name) "_job".toList = false := by
        simpa [participates] using hp
      simp only [scanLoop, hp2, List.filter_cons_of_neg hp]
      simpa using ih cases


set_option maxRecDepth 100000 in
theorem trimRight_textBeforeRange :
    trimRight textBeforeRange =
      ("// Code generated by go generate; DO NOT EDIT.\n" ++
       "package main\n\n" ++
       "import \"github.com/fieldryand/goflow/core\"\n" ++
       "import \"github.com/fieldryand/goflow/jobs\"\n\n" ++
       "func flow(job string) func() *core.Job \x7b\n" ++
       "\tswitch job \x7b").toList := by
  rfl

theorem trimRight_textBeforeEnd : trimRight textBeforeEnd = [] := by
  decide

theorem main_eq_mapM (files : List GoString) (readFile : GoString → Except IOError GoString)
    (old : Option GoString) (creatable : Bool) :
    main ⟨.ok files, readFile, old, creatable⟩ =
      match (files.filter participates).mapM (branchOf readFile) with
      | .error e => (.failed e, old)
      | .ok branches =>
        (.success, if creatable = true then some (flowTemplate branches) else old) := by
  simp only [main, scanLoop_eq_mapM]
  cases List.mapM (branchOf readFile) (List.filter participates files) <;>
    cases creatable <;> simp [bind, Except.bind, pure, Except.pure]

/-! ## The rendered document -/

/-- C4: for every dispatch table the rendered document is the fixed header
and function prologue, then one branch `case "<jobName>": return jobs.<constructorName>`
per entry in table order, then `default: return nil`, then the closing text;
the entries are inserted verbatim. -/
theorem flowTemplate_table (table : List (GoString × GoString)) :
    flowTemplate (table.map fun e => switchCase e.1 e.2) =
      ("// Code generated by go generate; DO NOT EDIT.\n" ++
       "package main\n\n" ++
       "import \"github.com/fieldryand/goflow/core\"\n" ++
       "import \"github.com/fieldryand/goflow/jobs\"\n\n" ++
       "func flow(job string) func() *core.Job \x7b\n" ++
       "\tswitch job \x7b").toList ++
      (table.map fun e =>
        "\n\t\tcase \"".toList ++ e.1 ++ "\": return jobs.".toList ++ e.2).flatten ++
      "\n\tdefault:\n\t\treturn nil\n\t\x7d\n\x7d\n".toList := by
  unfold flowTemplate
  rw [trimRight_textBeforeRange, trimRight_textBeforeEnd]
  have hmap : (List.map (fun c => textBeforeDot ++ c ++ [])
      (List.map (fun e => switchCase e.1 e.2) table)) =
      table.map fun e =>
        "\n\t\tcase \"".toList ++ e.1 ++ "\": return jobs.".toList ++ e.2 := by
    rw [List.map_map]
    apply List.map_congr_left
    intro e _
    simp [switchCase, textBeforeDot]
  rw [hmap]
  rfl

/-! ## Discovery order -/

/-- C5: the generated branches are those of the participating entries, taken
in directory-listing order, one per entry; nothing is sorted, reordered or
merged.  A fault of an entry stops the run and leaves `./flow.go` as it was. -/
theorem main_branches_in_listing_order (files : List GoString)
    (readFile : GoString → Except IOError GoString) (old : Option GoString) :
    main ⟨.ok files, readFile, old, true⟩ =
      match (files.filter participates).mapM (branchOf readFile) with
      | .error e => (.failed e, old)
      | .ok branches => (.success, some (flowTemplate branches)) := by
  rw [main_eq_mapM]
  cases List.mapM (branchOf readFile) (List.filter participates files) <;> simp


theorem mapM_branchOf_congr (readFile readFile2 : GoString → Except IOError GoString)
    (names : List GoString)
    (h : ∀ n ∈ names, readFile (jobPath n) = readFile2 (jobPath n)) :
    names.mapM (branchOf readFile) = names.mapM (branchOf readFile2) := by
  induction names with
  | nil => simp only [List.mapM_nil]
  | cons n ns ih =>
    have h1 : branchOf readFile n = branchOf readFile2 n := by
      simp [branchOf, h n (by simp)]
    have h2 := ih (fun m hm => h m (List.mem_cons_of_mem _ hm))
    simp only [List.mapM_cons, h1, h2]

/-- C5 seen from the other side: when every participating entry yields a
branch, the loop returns exactly those branches in listing order. -/
theorem mapM_branchOf_ok (readFile : GoString → Except IOError GoString)
    (names : List GoString) (g : GoString → GoString)
    (h : ∀ n ∈ names, branchOf readFile n = .ok (g n)) :
    names.mapM (branchOf readFile) = .ok (names.map g) := by
  induction names with
  | nil =>
    simp only [List.mapM_nil, List.map_nil]
    rfl
  | cons n ns ih =>
    have h2 := ih (fun m hm => h m (List.mem_cons_of_mem _ hm))
    simp only [List.mapM_cons, h n (by simp), h2, List.map_cons]
    rfl

/-! ## The ingest scenario -/

set_option maxRecDepth 100000 in
/-- The text written for the single file `ingest_job.go` whose first
`// goflow: ` occurrence is the line `// goflow: IngestJob ingest`. -/
theorem main_ingest_text (pre post : GoString) (old : Option GoString)
    (hfirst : stringsContains pre directive = false)
    (hpost : post = [] ∨ post.head? = some '\n') :
    main (singleJobWorld (pre ++ "// goflow: IngestJob ingest".toList ++ post) old) =
      (.success, some
        ("// Code generated by go generate; DO NOT EDIT.\n" ++
         "package main\n\n" ++
         "import \"github.com/fieldryand/goflow/core\"\n" ++
         "import \"github.com/fieldryand/goflow/jobs\"\n\n" ++
         "func flow(job string) func() *core.Job \x7b\n" ++
         "\tswitch job \x7b\n" ++
         "\t\tcase \"ingest\": return jobs.IngestJob\n" ++
         "\tdefault:\n" ++
         "\t\treturn nil\n" ++
         "\t\x7d\n" ++
         "\x7d\n").toList) := by
  have hff : filterFlow (pre ++ "// goflow: IngestJob ingest".toList ++ post) =
      .ok ("ingest".toList, "IngestJob".toList) := by
    have h := filterFlow_marker pre "IngestJob".toList "ingest".toList post hfirst
      ⟨by decide, by decide⟩ ⟨by decide, by decide⟩ hpost
    have e : pre ++ "// goflow: IngestJob ingest".toList ++ post =
        pre ++ directive ++ ("IngestJob".toList ++ ' ' :: "ingest".toList ++ post) := by
      simp [directive]
    rw [e]
    exact h
  have hb : branchOf (singleJobWorld (pre ++ "// goflow: IngestJob ingest".toList ++ post)
      old).readFile "ingest_job.go".toList =
      .ok (switchCase "ingest".toList "IngestJob".toList) := by
    have hr : (singleJobWorld (pre ++ "// goflow: IngestJob ingest".toList ++ post)
        old).readFile (jobPath "ingest_job.go".toList) =
        .ok (pre ++ "// goflow: IngestJob ingest".toList ++ post) := by
      have hpath : jobPath "ingest_job.go".toList = "./jobs/ingest_job.go".toList := by
        decide
      simp only [singleJobWorld, hpath, if_true]
    unfold branchOf
    rw [hr]
    simp only [hff]
  have hm := main_eq_mapM ["ingest_job.go".toList]
    (singleJobWorld (pre ++ "// goflow: IngestJob ingest".toList ++ post) old).readFile old true
  have hfil : List.filter participates ["ingest_job.go".toList] = ["ingest_job.go".toList] := by
    decide
  rw [hfil, mapM_branchOf_ok _ _ (fun _ => switchCase "ingest".toList "IngestJob".toList)
    (by intro n hn; simp only [List.mem_singleton] at hn; subst hn; exact hb)] at hm
  have hw : singleJobWorld (pre ++ "// goflow: IngestJob ingest".toList ++ post) old =
      ⟨.ok ["ingest_job.go".toList],
        (singleJobWorld (pre ++ "// goflow: IngestJob ingest".toList ++ post) old).readFile,
        old, true⟩ := rfl
  rw [hw, hm]
  rfl

set_option maxRecDepth 100000 in
/-- C3 as stated fails: the content `twoMarkers` of `ingest_job.go` contains
the line `// goflow: IngestJob ingest`, yet the generated selection function
has the single branch `case "export": return jobs.ExportJob`, and the name
`ingest` reaches the sentinel.  With an earlier line `// goflow: TODO` the
run panics and writes nothing. -/
theorem main_ingest_line_not_first :
    twoMarkers = "// goflow: ExportJob export\n".toList ++
      "// goflow: IngestJob ingest".toList ++ "\n".toList ∧
    main (singleJobWorld twoMarkers none) =
      (.success, some
        ("// Code generated by go generate; DO NOT EDIT.\n" ++
         "package main\n\n" ++
         "import \"github.com/fieldryand/goflow/core\"\n" ++
         "import \"github.com/fieldryand/goflow/jobs\"\n\n" ++
         "func flow(job string) func() *core.Job \x7b\n" ++
         "\tswitch job \x7b\n" ++
         "\t\tcase \"export\": return jobs.ExportJob\n" ++
         "\tdefault:\n" ++
         "\t\treturn nil\n" ++
         "\t\x7d\n" ++
         "\x7d\n").toList) ∧
    selectJob (flowTemplate [switchCase "export".toList "ExportJob".toList])
      "ingest".toList = none ∧
    main (singleJobWorld
      ("// goflow: TODO\n".toList ++ "// goflow: IngestJob ingest".toList ++ "\n".toList)
      none) = (.failed (.indexOutOfRange 3 3), none) := by
  refine ⟨by decide, by decide, by decide, by decide⟩

set_option maxRecDepth 100000 in
/-- C3 (amended): when the jobs directory holds only `ingest_job.go` and the
first occurrence of `// goflow: ` in its content is the line
`// goflow: IngestJob ingest`, the run succeeds and `./flow.go` is the
skeleton with exactly one match branch, `case "ingest": return jobs.IngestJob`,
followed by `default: return nil`: the selection function returns `IngestJob`
for `ingest` and the sentinel for every other name, `unknown` included. -/
theorem main_ingest_scenario (pre post : GoString) (old : Option GoString)
    (hfirst : stringsContains pre directive = false)
    (hpost : post = [] ∨ post.head? = some '\n') :
    ∃ doc,
      main (singleJobWorld (pre ++ "// goflow: IngestJob ingest".toList ++ post) old) =
        (.success, some doc) ∧
      doc =
        ("// Code generated by go generate; DO NOT EDIT.\n" ++
         "package main\n\n" ++
         "import \"github.com/fieldryand/goflow/core\"\n" ++
         "import \"github.com/fieldryand/goflow/jobs\"\n\n" ++
         "func flow(job string) func() *core.Job \x7b\n" ++
         "\tswitch job \x7b\n" ++
         "\t\tcase \"ingest\": return jobs.IngestJob\n" ++
         "\tdefault:\n" ++
         "\t\treturn nil\n" ++
         "\t\x7d\n" ++
         "\x7d\n").toList ∧
      branchesOf doc = [("ingest".toList, "IngestJob".toList)] ∧
      selectJob doc "ingest".toList = some "IngestJob".toList ∧
      selectJob doc "unknown".toList = none ∧
      ∀ job, job ≠ "ingest".toList → selectJob doc job = none := by
  refine ⟨_, main_ingest_text pre post old hfirst hpost, rfl, ?_, ?_, ?_, ?_⟩
  · decide
  · decide
  · decide
  · intro job hjob
    have hb : branchesOf
        ("// Code generated by go generate; DO NOT EDIT.\n" ++
         "package main\n\n" ++
         "import \"github.com/fieldryand/goflow/core\"\n" ++
         "import \"github.com/fieldryand/goflow/jobs\"\n\n" ++
         "func flow(job string) func() *core.Job \x7b\n" ++
         "\tswitch job \x7b\n" ++
         "\t\tcase \"ingest\": return jobs.IngestJob\n" ++
         "\tdefault:\n" ++
         "\t\treturn nil\n" ++
         "\t\x7d\n" ++
         "\x7d\n").toList = [("ingest".toList, "IngestJob".toList)] := by
      decide
    have hne : ("ingest".toList == job) = false := by
      simpa using Ne.symm hjob
    unfold selectJob
    rw [hb]
    simp only [List.find?, hne]
    rfl

set_option maxRecDepth 100000 in
theorem main_ingest_scenario_witness :
    ∃ doc,
      main (singleJobWorld ("package jobs\n\n".toList ++ "// goflow: IngestJob ingest".toList ++
        "\nfunc IngestJob() *core.Job \x7b return nil \x7d\n".toList) none) =
        (.success, some doc) ∧
      doc =
        ("// Code generated by go generate; DO NOT EDIT.\n" ++
         "package main\n\n" ++
         "import \"github.com/fieldryand/goflow/core\"\n" ++
         "import \"github.com/fieldryand/goflow/jobs\"\n\n" ++
         "func flow(job string) func() *core.Job \x7b\n" ++
         "\tswitch job \x7b\n" ++
         "\t\tcase \"ingest\": return jobs.IngestJob\n" ++
         "\tdefault:\n" ++
         "\t\treturn nil\n" ++
         "\t\x7d\n" ++
         "\x7d\n").toList ∧
      branchesOf doc = [("ingest".toList, "IngestJob".toList)] ∧
      selectJob doc "ingest".toList = some "IngestJob".toList ∧
      selectJob doc "unknown".toList = none ∧
      ∀ job, job ≠ "ingest".toList → selectJob doc job = none :=
  main_ingest_scenario "package jobs\n\n".toList
    "\nfunc IngestJob() *core.Job \x7b return nil \x7d\n".toList none
    (by decide) (Or.inr (by decide))

/-! ## Duplicate job names -/

/-- C7: an entry participates exactly when its name contains `_job` (the
test on `./jobs/` + name agrees with the test on the name).  In the loop an
entry whose name contains `_job` is read and extracted, and its branch is
appended or its fault stops the run; any other entry is passed over.  So the
run is the run over the entries whose names contain `_job`, in order, and it
equals the run on the listing restricted to those names, whatever reading the
other entries would give. -/
theorem main_skips_other_entries (files : List GoString)
    (readFile readFile2 : GoString → Except IOError GoString)
    (old : Option GoString) (creatable : Bool)
    (h : ∀ n ∈ files, stringsContains n "_job".toList = true →
      readFile (jobPath n) = readFile2 (jobPath n)) :
    (∀ name, stringsContains (jobPath name) "_job".toList =
      stringsContains name "_job".toList) ∧
    (∀ name rest cases, scanLoop readFile (name :: rest) cases =
      if stringsContains name "_job".toList = true then
        match readFile (jobPath name) with
        | .error err => .error (.fatal err)
        | .ok dat =>
          match filterFlow dat with
          | .error e => .error e
          | .ok (jobName, jobFn) =>
            scanLoop readFile rest (cases ++ [switchCase jobName jobFn])
      else scanLoop readFile rest cases) ∧
    main ⟨.ok files, readFile, old, creatable⟩ =
      (match (files.filter fun n => stringsContains n "_job".toList).mapM
          (branchOf readFile) with
        | .error e => (.failed e, old)
        | .ok branches =>
          (.success, if creatable = true then some (flowTemplate branches) else old)) ∧
    main ⟨.ok files, readFile, old, creatable⟩ =
      main ⟨.ok (files.filter fun n => stringsContains n "_job".toList), readFile2,
        old, creatable⟩ := by
  have hfun : (fun n => stringsContains n "_job".toList) = participates := by
    funext n
    exact (participates_eq_name n).symm
  refine ⟨participates_eq_name, ?_, ?_, ?_⟩
  · intro name rest cases
    have hp := participates_eq_name name
    unfold participates at hp
    cases hn : stringsContains name "_job".toList with
    | false =>
      rw [hn] at hp
      simp only [scanLoop, hp]
    | true =>
      rw [hn] at hp
      simp only [scanLoop, hp, if_true]
  · rw [hfun, main_eq_mapM]
  · rw [hfun, main_eq_mapM, main_eq_mapM, List.filter_filter]
    simp only [Bool.and_self]
    rw [mapM_branchOf_congr readFile readFile2]
    intro n hn
    obtain ⟨hn1, hn2⟩ := List.mem_filter.1 hn
    exact h n hn1 (by rw [← participates_eq_name]; exact hn2)

set_option maxRecDepth 100000 in
theorem main_skips_other_entries_witness :
    (mixedFiles.filter fun n => stringsContains n "_job".toList) = ["ingest_job.go".toList] ∧
    main ⟨.ok mixedFiles, mixedReadFile, none, true⟩ =
      (.success, some (flowTemplate [switchCase "ingest".toList "IngestJob".toList])) ∧
    main ⟨.ok mixedFiles, mixedReadFile, none, true⟩ =
      main ⟨.ok (mixedFiles.filter fun n => stringsContains n "_job".toList),
        jobOnlyReadFile, none, true⟩ :=
  ⟨by decide,
   ((main_skips_other_entries mixedFiles mixedReadFile jobOnlyReadFile none true
      (by decide)).2.2.1).trans (by decide),
   (main_skips_other_entries mixedFiles mixedReadFile jobOnlyReadFile none true
      (by decide)).2.2.2⟩

/-! ## No participating file -/

set_option maxRecDepth 100000 in
/-- C8: when no entry name of the directory contains `_job` (in particular
when the directory is empty), the run writes exactly the fixed skeleton, whose
switch holds only `default: return nil`; the text has no `case`. -/
theorem main_no_participating_file (files : List GoString)
    (readFile : GoString → Except IOError GoString) (old : Option GoString)
    (h : ∀ n ∈ files, stringsContains n "_job".toList = false) :
    main ⟨.ok files, readFile, old, true⟩ =
      (.success, some
        ("// Code generated by go generate; DO NOT EDIT.\n" ++
         "package main\n\n" ++
         "import \"github.com/fieldryand/goflow/core\"\n" ++
         "import \"github.com/fieldryand/goflow/jobs\"\n\n" ++
         "func flow(job string) func() *core.Job \x7b\n" ++
         "\tswitch job \x7b\n" ++
         "\tdefault:\n" ++
         "\t\treturn nil\n" ++
         "\t\x7d\n" ++
         "\x7d\n").toList) ∧
    stringsContains
        ("// Code generated by go generate; DO NOT EDIT.\n" ++
         "package main\n\n" ++
         "import \"github.com/fieldryand/goflow/core\"\n" ++
         "import \"github.com/fieldryand/goflow/jobs\"\n\n" ++
         "func flow(job string) func() *core.Job \x7b\n" ++
         "\tswitch job \x7b\n" ++
         "\tdefault:\n" ++
         "\t\treturn nil\n" ++
         "\t\x7d\n" ++
         "\x7d\n").toList "case".toList = false := by
  refine ⟨?_, by decide⟩
  have hnil : files.filter participates = [] := by
    rw [List.filter_eq_nil_iff]
    intro n hn
    rw [participates_eq_name, h n hn]
    simp
  rw [main_eq_mapM, hnil]
  rfl

theorem main_no_participating_file_witness :
    main ⟨.ok ["README.md".toList, "testdata".toList], mixedReadFile, none, true⟩ =
      (.success, some
        ("// Code generated by go generate; DO NOT EDIT.\n" ++
         "package main\n\n" ++
         "import \"github.com/fieldryand/goflow/core\"\n" ++
         "import \"github.com/fieldryand/goflow/jobs\"\n\n" ++
         "func flow(job string) func() *core.Job \x7b\n" ++
         "\tswitch job \x7b\n" ++
         "\tdefault:\n" ++
         "\t\treturn nil\n" ++
         "\t\x7d\n" ++
         "\x7d\n").toList) :=
  (main_no_participating_file ["README.md".toList, "testdata".toList] mixedReadFile none
    (by decide)).1


/-! ## Faults before the output is opened -/

theorem mapM_branchOf_error (readFile : GoString → Except IOError GoString)
    (names : List GoString) (n : GoString) (hn : n ∈ names)
    (h : ∃ e, branchOf readFile n = .error e) :
    ∃ f, names.mapM (branchOf readFile) = .error f := by
  induction names with
  | nil => cases hn
  | cons m ms ih =>
    cases hm : branchOf readFile m with
    | error f =>
      refine ⟨f, ?_⟩
      simp only [List.mapM_cons, hm]
      rfl
    | ok c =>
      have hn2 : n ∈ ms := by
        rcases List.mem_cons.1 hn with e | e
        · subst e
          obtain ⟨e2, he2⟩ := h
          rw [hm] at he2
          cases he2
        · exact e
      obtain ⟨f, hf⟩ := ih hn2
      refine ⟨f, ?_⟩
      simp only [List.mapM_cons, hm, hf]
      rfl

theorem main_failed_flow (w : World) (f : Fault) (out : Option GoString)
    (h : main w = (.failed f, out)) : out = w.flow := by
  unfold main at h
  split at h
  · simp only [Prod.mk.injEq] at h
    exact h.2.symm
  · split at h
    · simp only [Prod.mk.injEq] at h
      exact h.2.symm
    · split at h <;> simp at h

/-- C11: a failed run leaves `./flow.go` as it was.  When `ioutil.ReadDir`
fails, or a participating entry cannot be read, or `filterFlow` panics on a
participating entry, `main` stops with a fault before `os.Create` is reached:
the content of `./flow.go` after the run is the content before it. -/
theorem main_fault_leaves_flow (w : World) :
    (∀ err, w.readDir = .error err → main w = (.failed (.fatal err), w.flow)) ∧
    (∀ files n, w.readDir = .ok files → n ∈ files → participates n = true →
      ((∃ err, w.readFile (jobPath n) = .error err) ∨
       (∃ dat e, w.readFile (jobPath n) = .ok dat ∧ filterFlow dat = .error e)) →
      ∃ f, main w = (.failed f, w.flow)) ∧
    (∀ f out, main w = (.failed f, out) → out = w.flow) := by
  refine ⟨?_, ?_, main_failed_flow w⟩
  · intro err h
    simp [main, h]
  · intro files n hdir hn hp hbad
    have hb : ∃ e, branchOf w.readFile n = .error e := by
      rcases hbad with ⟨err, he⟩ | ⟨dat, e, hr, hf⟩
      · exact ⟨.fatal err, by simp [branchOf, he]⟩
      · exact ⟨e, by simp [branchOf, hr, hf]⟩
    obtain ⟨f, hf⟩ := mapM_branchOf_error w.readFile (files.filter participates) n
      (List.mem_filter.2 ⟨hn, hp⟩) hb
    refine ⟨f, ?_⟩
    have hw : w = ⟨.ok files, w.readFile, w.flow, w.creatable⟩ := by
      cases w
      simp only at hdir
      simp only [hdir]
    rw [hw, main_eq_mapM, hf]

theorem main_fault_leaves_flow_witness :
    ∃ f, main (singleJobWorld "package jobs\n".toList (some "// previous flow.go\n".toList)) =
      (.failed f, some "// previous flow.go\n".toList) :=
  (main_fault_leaves_flow
    (singleJobWorld "package jobs\n".toList (some "// previous flow.go\n".toList))).2.1
    ["ingest_job.go".toList] "ingest_job.go".toList rfl (by decide) (by decide)
    (Or.inr ⟨"package jobs\n".toList, .indexOutOfRange 3 1, by decide, by decide⟩)


/-! ## The output cannot be created -/

/-- C12: when `os.Create("./flow.go")` fails, the code does not report a
failure: the scan of `readOnlyWorld` succeeds, the error of `os.Create` is
dropped, nothing is written, and `main` returns normally (exit status 0). -/
theorem main_create_error_ignored (old : Option GoString) :
    (readOnlyWorld old).creatable = false ∧
    main (readOnlyWorld old) = (.success, old) := by
  have h : scanLoop jobOnlyReadFile ["ingest_job.go".toList] [] =
      .ok [switchCase "ingest".toList "IngestJob".toList] := by
    decide
  refine ⟨rfl, ?_⟩
  simp only [main, readOnlyWorld, h]
  rfl

/-! ## Running twice -/

/-- C13: running `main` again on the world left by a run gives the same exit
and the same `./flow.go`; and a successful run that can create `./flow.go`
writes a text fixed by the listing of `./jobs` and the contents of its
entries: any world with that listing and those contents gets the same
`./flow.go`, whatever its `./flow.go` held before. -/
theorem main_idempotent (w : World) :
    main (afterRun w) = main w ∧
    (afterRun w).readDir = w.readDir ∧
    (afterRun w).flow = (main w).2 ∧
    (∀ w2 : World, w2.readDir = w.readDir →
      (∀ files, w.readDir = .ok files → ∀ n ∈ files,
        w2.readFile (jobPath n) = w.readFile (jobPath n)) →
      w.creatable = true → w2.creatable = true → (main w).1 = .success →
      main w2 = main w) := by
  refine ⟨?_, rfl, rfl, ?_⟩
  · obtain ⟨rd, rf, fl, c⟩ := w
    cases rd with
    | error e => simp [afterRun, main]
    | ok files =>
      cases hs : scanLoop rf files [] with
      | error e => simp [afterRun, main, hs]
      | ok cases => cases c <;> simp [afterRun, main, hs]
  · intro w2 hdir hfiles hc hc2 hs
    obtain ⟨rd, rf, fl, c⟩ := w
    obtain ⟨rd2, rf2, fl2, c2⟩ := w2
    simp only at hdir hfiles hc hc2
    subst hdir hc hc2
    cases rd2 with
    | error e => simp [main] at hs
    | ok files =>
      have hcongr : (files.filter participates).mapM (branchOf rf2) =
          (files.filter participates).mapM (branchOf rf) :=
        mapM_branchOf_congr rf2 rf _
          (fun n hn => hfiles files rfl n (List.mem_filter.1 hn).1)
      rw [main_eq_mapM] at hs ⊢
      rw [main_eq_mapM, hcongr]
      cases hm : (files.filter participates).mapM (branchOf rf) with
      | error e => rw [hm] at hs; simp at hs
      | ok branches => simp

theorem main_idempotent_witness :
    main (afterRun (singleJobWorld "// goflow: IngestJob ingest\n".toList none)) =
      main (singleJobWorld "// goflow: IngestJob ingest\n".toList none) ∧
    main (singleJobWorld "// goflow: IngestJob ingest\n".toList (some "stale".toList)) =
      main (singleJobWorld "// goflow: IngestJob ingest\n".toList none) :=
  ⟨(main_idempotent (singleJobWorld "// goflow: IngestJob ingest\n".toList none)).1,
   (main_idempotent (singleJobWorld "// goflow: IngestJob ingest\n".toList none)).2.2.2
    (singleJobWorld "// goflow: IngestJob ingest\n".toList (some "stale".toList))
    rfl (fun _ _ _ _ => rfl) rfl rfl (by decide)⟩


/-! ## The first marker line decides -/

theorem findString_line (pre line post : GoString)
    (hfirst : stringsContains pre directive = false) (hline : '\n' ∉ line)
    (hpost : post = [] ∨ post.head? = some '\n') :
    findString (pre ++ directive ++ (line ++ post)) = directive ++ line := by
  rw [findString_first pre _ hfirst, takeWhile_line line post hline hpost]

theorem filterFlow_line (pre line post : GoString)
    (hfirst : stringsContains pre directive = false) (hline : '\n' ∉ line)
    (hpost : post = [] ∨ post.head? = some '\n') :
    filterFlow (pre ++ directive ++ (line ++ post)) = filterFlow (directive ++ line) := by
  have h1 := findString_line pre line post hfirst hline hpost
  have h2 := findString_line [] line [] (by decide) hline (Or.inl rfl)
  simp only [List.nil_append, List.append_nil] at h2
  unfold filterFlow
  rw [h1, h2]

/-- C14: only the first marker match is used.  When the first occurrence of
`// goflow: ` is followed by `line` up to a newline, the result of `filterFlow`
(pair or panic) is its result on the content truncated after that line;
the text after the newline, later marker lines included, does not matter. -/
theorem filterFlow_first_match_only (pre line rest : GoString)
    (hfirst : stringsContains pre directive = false) (hline : '\n' ∉ line) :
    filterFlow (pre ++ directive ++ line ++ '\n' :: rest) =
      filterFlow (pre ++ directive ++ line) ∧
    ∀ rest2, filterFlow (pre ++ directive ++ line ++ '\n' :: rest) =
      filterFlow (pre ++ directive ++ line ++ '\n' :: rest2) := by
  have h0 := filterFlow_line pre line [] hfirst hline (Or.inl rfl)
  have h1 : ∀ r, filterFlow (pre ++ directive ++ line ++ '\n' :: r) =
      filterFlow (directive ++ line) := by
    intro r
    have := filterFlow_line pre line ('\n' :: r) hfirst hline (Or.inr rfl)
    simpa only [List.append_assoc] using this
  simp only [List.append_nil] at h0
  refine ⟨?_, fun rest2 => ?_⟩
  · rw [h1 rest]
    simpa only [List.append_assoc] using h0.symm
  · rw [h1 rest, h1 rest2]

theorem filterFlow_first_match_only_witness :
    filterFlow ("package jobs\n".toList ++ directive ++ "ExportJob export".toList ++
        '\n' :: "// goflow: IngestJob ingest\n".toList) =
      filterFlow ("package jobs\n".toList ++ directive ++ "ExportJob export".toList) :=
  (filterFlow_first_match_only "package jobs\n".toList "ExportJob export".toList
    "// goflow: IngestJob ingest\n".toList (by decide) (by decide)).1

/-! ## Trailing text on the marker line -/

/-- C16: text after the job name is ignored.  When the first marker line is
`// goflow: F N`, a space and further text `extra` on the same line, with `F`
and `N` free of spaces, `filterFlow` returns `(N, F)`, the pair it returns for
the line `// goflow: F N` alone. -/
theorem filterFlow_ignores_trailing_text (pre F N extra post : GoString)
    (hfirst : stringsContains pre directive = false)
    (hF : ' ' ∉ F ∧ '\n' ∉ F) (hN : ' ' ∉ N ∧ '\n' ∉ N) (hextra : '\n' ∉ extra)
    (hpost : post = [] ∨ post.head? = some '\n') :
    filterFlow (pre ++ directive ++ F ++ [' '] ++ N ++ [' '] ++ extra ++ post) = .ok (N, F) ∧
    filterFlow (pre ++ directive ++ F ++ [' '] ++ N ++ post) = .ok (N, F) := by
  constructor
  · have hline : '\n' ∉ F ++ ' ' :: (N ++ ' ' :: extra) := by
      simp [hF.2, hN.2, hextra]
    have hfind := findString_line pre (F ++ ' ' :: (N ++ ' ' :: extra)) post hfirst hline hpost
    have e : pre ++ directive ++ F ++ [' '] ++ N ++ [' '] ++ extra ++ post =
        pre ++ directive ++ (F ++ ' ' :: (N ++ ' ' :: extra) ++ post) := by
      simp
    have hsplit : stringsSplit ' ' (directive ++ (F ++ ' ' :: (N ++ ' ' :: extra))) =
        "//".toList :: "goflow:".toList :: F :: N :: stringsSplit ' ' extra := by
      have h1 : directive ++ (F ++ ' ' :: (N ++ ' ' :: extra)) =
          "//".toList ++ ' ' :: ("goflow:".toList ++ ' ' :: (F ++ ' ' :: (N ++ ' ' :: extra))) := by
        simp [directive]
      rw [h1, stringsSplit_append_sep _ _ _ (by decide),
        stringsSplit_append_sep _ _ _ (by decide),
        stringsSplit_append_sep _ _ _ hF.1, stringsSplit_append_sep _ _ _ hN.1]
    rw [e]
    unfold filterFlow
    rw [hfind, hsplit]
    rfl
  · have h := filterFlow_marker pre F N post hfirst hF hN hpost
    have e : pre ++ directive ++ F ++ [' '] ++ N ++ post =
        pre ++ directive ++ (F ++ ' ' :: N ++ post) := by
      simp
    rw [e]
    exact h

theorem filterFlow_ignores_trailing_text_witness :
    filterFlow ("package jobs\n".toList ++ directive ++ "IngestJob".toList ++ [' '] ++
        "ingest".toList ++ [' '] ++ "runs  nightly, see docs".toList ++ "\n".toList) =
      .ok ("ingest".toList, "IngestJob".toList) :=
  (filterFlow_ignores_trailing_text "package jobs\n".toList "IngestJob".toList
    "ingest".toList "runs  nightly, see docs".toList "\n".toList
    (by decide) ⟨by decide, by decide⟩ ⟨by decide, by decide⟩ (by decide)
    (Or.inr (by decide))).1


/-! ## When the positional indexing is in range -/

theorem findString_no_match (file : GoString)
    (h : stringsContains file directive = false) : findString file = [] := by
  induction file with
  | nil => rfl
  | cons c cs ih =>
    simp only [stringsContains, Bool.or_eq_false_iff] at h
    simp only [findString, h.1]
    exact ih h.2

theorem stringsSplit_directive (line : GoString) :
    stringsSplit ' ' (directive ++ line) =
      "//".toList :: "goflow:".toList :: stringsSplit ' ' line := by
  have h1 : directive ++ line = "//".toList ++ ' ' :: ("goflow:".toList ++ ' ' :: line) := by
    simp [directive]
  rw [h1, stringsSplit_append_sep _ _ _ (by decide),
    stringsSplit_append_sep _ _ _ (by decide)]

theorem stringsSplit_two_of_mem (sep : Char) (l : GoString) (h : sep ∈ l) :
    ∃ a b tl, stringsSplit sep l = a :: b :: tl := by
  induction l with
  | nil => cases h
  | cons c cs ih =>
    by_cases hc : c = sep
    · cases hs : stringsSplit sep cs with
      | nil =>
        cases cs with
        | nil => simp [stringsSplit] at hs
        | cons d ds =>
          simp only [stringsSplit] at hs
          split at hs
          · cases hs
          · split at hs <;> cases hs
      | cons w ws => exact ⟨[], w, ws, by simp [stringsSplit, hc, hs]⟩
    · have hm : sep ∈ cs := by
        rcases List.mem_cons.1 h with e | e
        · exact absurd e.symm hc
        · exact e
      obtain ⟨a, b, tl, hs⟩ := ih hm
      exact ⟨c :: a, b, tl, by simp [stringsSplit, hc, hs]⟩

theorem dropWhile_head (p : Char → Bool) (t : GoString) :
    t.dropWhile p = [] ∨ ∃ d ds, t.dropWhile p = d :: ds ∧ p d = false := by
  induction t with
  | nil => exact Or.inl rfl
  | cons c cs ih =>
    cases hp : p c with
    | true => simpa [List.dropWhile_cons, hp] using ih
    | false => exact Or.inr ⟨c, cs, by simp [List.dropWhile_cons, hp], hp⟩

/-- A content that holds `// goflow: ` splits at the first occurrence into
the text before it, the rest of that line, and the text from the newline on. -/
theorem exists_first_directive (file : GoString)
    (h : stringsContains file directive = true) :
    ∃ pre line post, file = pre ++ directive ++ line ++ post ∧
      stringsContains pre directive = false ∧ '\n' ∉ line ∧
      (post = [] ∨ post.head? = some '\n') := by
  induction file with
  | nil => exact absurd h (by decide)
  | cons c cs ih =>
    by_cases hp : directive.isPrefixOf (c :: cs) = true
    · obtain ⟨t, ht⟩ := List.isPrefixOf_iff_prefix.1 hp
      refine ⟨[], t.takeWhile (fun x => x != '\n'), t.dropWhile (fun x => x != '\n'), ?_, ?_, ?_, ?_⟩
      · rw [List.nil_append, List.append_assoc, List.takeWhile_append_dropWhile]
        exact ht.symm
      · decide
      · intro hm
        have := List.mem_takeWhile_imp hm
        simp at this
      · rcases dropWhile_head (fun x => x != '\n') t with h0 | ⟨d, ds, h1, h2⟩
        · exact Or.inl h0
        · right
          have hd : d = '\n' := by simpa using h2
          rw [h1, hd]
          rfl
    · have hp2 : directive.isPrefixOf (c :: cs) = false := by
        cases hq : directive.isPrefixOf (c :: cs) with
        | false => rfl
        | true => exact absurd hq hp
      simp only [stringsContains, hp2, Bool.false_or] at h
      obtain ⟨pre, line, post, hfile, hfirst, hline, hpost⟩ := ih h
      refine ⟨c :: pre, line, post, by simp [hfile], ?_, hline, hpost⟩
      simp only [stringsContains, hfirst, Bool.or_false]
      cases hq : directive.isPrefixOf (c :: pre) with
      | false => rfl
      | true =>
        exfalso
        have h1 : directive <+: c :: pre := List.isPrefixOf_iff_prefix.1 hq
        have h2 : c :: pre <+: c :: cs := by
          rw [hfile]
          exact ⟨directive ++ line ++ post, by simp⟩
        have h3 := List.isPrefixOf_iff_prefix.2 (h1.trans h2)
        rw [hp2] at h3
        cases h3

/-- C15: the accesses `comment[3]` and `comment[2]` of `filterFlow` are in
range exactly when the content holds `// goflow: ` and the rest of the line of
its first occurrence holds at least one more space.  Without that space the
panic is `index out of range [3] with length 3`; without any `// goflow: `
it is `index out of range [3] with length 1`. -/
theorem filterFlow_in_range_iff (file : GoString) :
    ((∃ p, filterFlow file = .ok p) ↔
      ∃ pre line post, file = pre ++ directive ++ line ++ post ∧
        stringsContains pre directive = false ∧ '\n' ∉ line ∧
        (post = [] ∨ post.head? = some '\n') ∧ ' ' ∈ line) ∧
    (∀ pre line post, file = pre ++ directive ++ line ++ post →
      stringsContains pre directive = false → '\n' ∉ line →
      (post = [] ∨ post.head? = some '\n') → ' ' ∉ line →
      filterFlow file = .error (.indexOutOfRange 3 3)) ∧
    (stringsContains file directive = false →
      filterFlow file = .error (.indexOutOfRange 3 1)) := by
  have hnone : stringsContains file directive = false →
      filterFlow file = .error (.indexOutOfRange 3 1) := by
    intro h
    unfold filterFlow
    rw [findString_no_match file h]
    rfl
  have hshort : ∀ pre line post, file = pre ++ directive ++ line ++ post →
      stringsContains pre directive = false → '\n' ∉ line →
      (post = [] ∨ post.head? = some '\n') → ' ' ∉ line →
      filterFlow file = .error (.indexOutOfRange 3 3) := by
    intro pre line post hfile hfirst hline hpost hsp
    have hfind := findString_line pre line post hfirst hline hpost
    rw [hfile, List.append_assoc (pre ++ directive)]
    unfold filterFlow
    rw [hfind, stringsSplit_directive, stringsSplit_of_not_mem _ _ hsp]
    rfl
  refine ⟨⟨?_, ?_⟩, hshort, hnone⟩
  · rintro ⟨p, hp⟩
    cases hc : stringsContains file directive with
    | false => rw [hnone hc] at hp; cases hp
    | true =>
      obtain ⟨pre, line, post, hfile, hfirst, hline, hpost⟩ := exists_first_directive file hc
      refine ⟨pre, line, post, hfile, hfirst, hline, hpost, ?_⟩
      by_contra hsp
      rw [hshort pre line post hfile hfirst hline hpost hsp] at hp
      cases hp
  · rintro ⟨pre, line, post, hfile, hfirst, hline, hpost, hsp⟩
    obtain ⟨a, b, tl, hs⟩ := stringsSplit_two_of_mem ' ' line hsp
    have hfind := findString_line pre line post hfirst hline hpost
    refine ⟨(b, a), ?_⟩
    rw [hfile, List.append_assoc (pre ++ directive)]
    unfold filterFlow
    rw [hfind, stringsSplit_directive, hs]
    rfl

theorem filterFlow_in_range_iff_witness :
    filterFlow "package jobs\n\nfunc IngestJob() *core.Job\n".toList =
      .error (.indexOutOfRange 3 1) ∧
    filterFlow threeMarkers = .error (.indexOutOfRange 3 3) :=
  ⟨(filterFlow_in_range_iff "package jobs\n\nfunc IngestJob() *core.Job\n".toList).2.2
    (by decide),
   (filterFlow_in_range_iff threeMarkers).2.1 "package jobs\n".toList "TODO".toList
    "\n// goflow: ExportJob export\n// goflow: IngestJob ingest\n".toList
    (by decide) (by decide) (by decide) (Or.inr (by decide)) (by decide)⟩

end Goflow
